import Mathlib

/-!
Verification of the zotero-direct plugin core (search/ranking engine,
cache store, note merge engine, extraction identity resolution).

Modelling conventions for the shallow embedding:
* JS strings are `List Char`; a helper `str` converts a Lean string literal.
* JS numbers holding search scores are `Rat` (all score arithmetic in the
  source is exact in doubles: small dyadic rationals).
* File-system timestamps (`mtimeMs`) are `Int`; `0` encodes a missing file,
  exactly as `getDbModificationTime` does.
* JS object-field lookups that the source only ever tests for truthiness
  are modelled as `List Char` where `[]` stands for both "absent" and
  the (indistinguishable) empty string.
-/

def str (s : String) : List Char := s.data

/-- Whitespace test covering the characters JS `\s`/`trim` handle for the
inputs this code base deals with (ASCII whitespace). -/
def isWs (c : Char) : Bool :=
  c == ' ' || c == '\t' || c == '\n' || c == '\r' || c == '\x0b' || c == '\x0c'

/-- JS `String.prototype.trim`. -/
def jsTrim (l : List Char) : List Char :=
  ((l.dropWhile isWs).reverse.dropWhile isWs).reverse

/-- Boolean prefix test, JS `String.prototype.startsWith`. -/
def isPrefixB : List Char → List Char → Bool
  | [], _ => true
  | _ :: _, [] => false
  | a :: as, b :: bs => a == b && isPrefixB as bs

/-- `needle` occurs in `hay` at offset `i`. -/
def occursAt (hay needle : List Char) (i : Nat) : Bool :=
  isPrefixB needle (hay.drop i)

/-- Substring test: `needle` occurs somewhere in `hay`. -/
def containsB (hay needle : List Char) : Bool :=
  (List.range (hay.length + 1)).any (fun i => occursAt hay needle i)

/-- JS `String.prototype.indexOf`: offset of the first occurrence, `-1` if none. -/
def jsIndexOf (hay needle : List Char) : Int :=
  match (List.range (hay.length + 1)).find? (fun i => occursAt hay needle i) with
  | some i => (i : Int)
  | none => -1

/-- Offset of the first occurrence of `needle` in `hay` (meaningful only when
`needle` does occur; `List.range` is ascending, so `find?` yields the least
occurrence offset). -/
def firstOccIdx (hay needle : List Char) : Nat :=
  ((List.range (hay.length + 1)).find? (fun i => occursAt hay needle i)).getD 0

theorem isPrefixB_trans {a b c : List Char} (hab : isPrefixB a b = true)
    (hbc : isPrefixB b c = true) : isPrefixB a c = true := by
  induction a generalizing b c with
  | nil => rfl
  | cons x xs ih =>
    cases b with
    | nil => simp [isPrefixB] at hab
    | cons y ys =>
      cases c with
      | nil => simp [isPrefixB] at hbc
      | cons z zs =>
        simp only [isPrefixB, Bool.and_eq_true, beq_iff_eq] at hab hbc ⊢
        exact ⟨hab.1.trans hbc.1, ih hab.2 hbc.2⟩

theorem isPrefixB_drop {a b : List Char} (j : Nat) (h : isPrefixB a b = true) :
    isPrefixB (a.drop j) (b.drop j) = true := by
  induction j generalizing a b with
  | zero => simpa using h
  | succ n ih =>
    cases a with
    | nil => rfl
    | cons x xs =>
      cases b with
      | nil => simp [isPrefixB] at h
      | cons y ys =>
        simp only [isPrefixB, Bool.and_eq_true] at h
        simpa using ih h.2

theorem isPrefixB_length {a b : List Char} (h : isPrefixB a b = true) :
    a.length ≤ b.length := by
  induction a generalizing b with
  | nil => simp
  | cons x xs ih =>
    cases b with
    | nil => simp [isPrefixB] at h
    | cons y ys =>
      simp only [isPrefixB, Bool.and_eq_true] at h
      simpa using ih h.2

theorem containsB_nil_needle (hay : List Char) : containsB hay [] = true := by
  have h0 : (0 : Nat) ∈ List.range (hay.length + 1) := by
    simp [List.mem_range]
  simp only [containsB, List.any_eq_true]
  exact ⟨0, h0, by simp [occursAt, isPrefixB]⟩

theorem containsB_of_occursAt {hay needle : List Char} {i : Nat}
    (h : occursAt hay needle i = true) : containsB hay needle = true := by
  rcases needle with _ | ⟨c, cs⟩
  · exact containsB_nil_needle hay
  · have hlen := isPrefixB_length h
    simp only [List.length_cons, List.length_drop] at hlen
    simp only [containsB, List.any_eq_true]
    refine ⟨i, ?_, h⟩
    simp only [List.mem_range]
    omega

theorem containsB_trans {hay mid needle : List Char}
    (h1 : containsB hay mid = true) (h2 : containsB mid needle = true) :
    containsB hay needle = true := by
  simp only [containsB, List.any_eq_true, List.mem_range] at h1 h2
  obtain ⟨i, _, hi⟩ := h1
  obtain ⟨j, _, hj⟩ := h2
  have hd := isPrefixB_drop j hi
  rw [List.drop_drop] at hd
  exact containsB_of_occursAt (isPrefixB_trans hj hd)

theorem jsIndexOf_eq_neg_one_iff {hay needle : List Char} :
    jsIndexOf hay needle = -1 ↔ containsB hay needle = false := by
  cases hfind : (List.range (hay.length + 1)).find? (fun i => occursAt hay needle i) with
  | some i =>
    have hjs : jsIndexOf hay needle = (i : Int) := by
      unfold jsIndexOf
      rw [hfind]
    rw [hjs]
    constructor
    · intro h
      exact absurd h (by omega)
    · intro h
      have hp := List.find?_some hfind
      have hmem := List.mem_of_find?_eq_some hfind
      unfold containsB at h
      rw [List.any_eq_false] at h
      exact absurd hp (by simpa using h i hmem)
  | none =>
    have hjs : jsIndexOf hay needle = -1 := by
      unfold jsIndexOf
      rw [hfind]
    rw [hjs]
    rw [List.find?_eq_none] at hfind
    constructor
    · intro _
      unfold containsB
      rw [List.any_eq_false]
      intro i hi
      simpa using hfind i hi
    · intro _; rfl

theorem jsIndexOf_of_contains {hay needle : List Char}
    (h : containsB hay needle = true) :
    jsIndexOf hay needle = (firstOccIdx hay needle : Int) := by
  unfold jsIndexOf firstOccIdx
  cases hfind : (List.range (hay.length + 1)).find? (fun i => occursAt hay needle i) with
  | some i => rfl
  | none =>
    rw [List.find?_eq_none] at hfind
    simp only [containsB, List.any_eq_true] at h
    obtain ⟨i, hi, hocc⟩ := h
    exact absurd hocc (by simpa using hfind i hi)

theorem occursAt_firstOccIdx {hay needle : List Char}
    (h : containsB hay needle = true) :
    occursAt hay needle (firstOccIdx hay needle) = true := by
  unfold firstOccIdx
  cases hfind : (List.range (hay.length + 1)).find? (fun i => occursAt hay needle i) with
  | some i => simpa using List.find?_some hfind
  | none =>
    rw [List.find?_eq_none] at hfind
    simp only [containsB, List.any_eq_true] at h
    obtain ⟨i, hi, hocc⟩ := h
    exact absurd hocc (by simpa using hfind i hi)

theorem containsB_nil_hay {needle : List Char} (h : needle ≠ []) :
    containsB [] needle = false := by
  rcases needle with _ | ⟨c, cs⟩
  · exact absurd rfl h
  · rfl

/-- Maximum of a list of integers (`Math.max(...l)` for nonempty `l`;
the `-1` default is never relevant at the call sites below). -/
def listMax : List Int → Int
  | [] => -1
  | x :: xs => xs.foldl max x

theorem init_le_foldl_max {a : Int} {l : List Int} : a ≤ l.foldl max a := by
  induction l generalizing a with
  | nil => simp
  | cons x xs ih =>
    rw [List.foldl_cons]
    exact le_trans (le_max_left a x) ih

theorem foldl_max_le_of_mem {y a : Int} {l : List Int}
    (h : y = a ∨ y ∈ l) : y ≤ l.foldl max a := by
  induction l generalizing a with
  | nil =>
    rcases h with h | h
    · subst h; simp
    · simp at h
  | cons x xs ih =>
    rw [List.foldl_cons]
    rcases h with h | h
    · subst h
      exact le_trans (le_max_left y x) init_le_foldl_max
    · rcases List.mem_cons.mp h with h | h
      · subst h
        exact le_trans (le_max_right a y) init_le_foldl_max
      · exact ih (Or.inr h)

theorem foldl_max_mem {a : Int} {l : List Int} :
    l.foldl max a = a ∨ l.foldl max a ∈ l := by
  induction l generalizing a with
  | nil => exact Or.inl rfl
  | cons x xs ih =>
    rcases @ih (max a x) with h | h
    · rcases max_choice a x with hm | hm
      · refine Or.inl ?_
        rw [List.foldl_cons, h]
        exact hm
      · refine Or.inr ?_
        rw [List.foldl_cons, h, hm]
        exact List.mem_cons_self _ _
    · exact Or.inr (List.mem_cons_of_mem _ (by rw [List.foldl_cons]; exact h))

theorem le_listMax_of_mem {y : Int} {x : Int} {l : List Int}
    (h : y ∈ x :: l) : y ≤ listMax (x :: l) := by
  show y ≤ l.foldl max x
  rcases List.mem_cons.mp h with h | h
  · exact foldl_max_le_of_mem (Or.inl h)
  · exact foldl_max_le_of_mem (Or.inr h)

theorem listMax_mem {x : Int} {l : List Int} : listMax (x :: l) ∈ x :: l := by
  show l.foldl max x ∈ x :: l
  rcases @foldl_max_mem x l with h | h
  · rw [h]; exact List.mem_cons_self _ _
  · exact List.mem_cons_of_mem _ h

/-!
Search engine (`SelectReferenceModal` in the suggester module).
-/

/-- JS `string.split(/\s+/)` on an already trimmed string, producing the runs
between whitespace (empty pieces arise at whitespace runs and are removed by
the `.filter(kw => kw.length > 0)` that the source always applies right after). -/
def splitRaw (l : List Char) : List (List Char) :=
  l.foldr
    (fun c acc =>
      if isWs c then [] :: acc
      else
        match acc with
        | [] => [[c]]
        | w :: ws => (c :: w) :: ws)
    []

/-- Keyword list of a query: `query.toLowerCase().trim().split(/\s+/).filter(kw => kw.length > 0)`. -/
def keywordsOf (query : List Char) : List (List Char) :=
  (splitRaw (jsTrim (query.map Char.toLower))).filter (fun kw => kw.length > 0)

/-- One bibliographic entry as the suggester sees it (the fields of
`Reference` that search, scoring and the cache actually read). -/
structure Reference where
  citationKey : List Char
  title : List Char
  date : List Char
  dateModified : List Char
  publicationTitle : List Char
  abstractNote : List Char
  authorKey : List Char
  authorKeyFullName : List Char
  zoteroTags : List (List Char)
deriving DecidableEq

/-- Pre-computed search data (`SearchableItem`). -/
structure SearchableItem where
  item : Reference
  titleLower : List Char
  authorLower : List Char
  authorOriginal : List Char
  journalLower : List Char
  citeKeyLower : List Char
  abstractLower : List Char
  abstractOriginal : List Char
  tagsLower : List Char
  tagsOriginal : List Char
deriving DecidableEq

/-- A highlight range `{start, end}` (`end` is a Lean keyword, renamed `stop`). -/
structure MatchSpan where
  start : Nat
  stop : Nat
deriving DecidableEq

/-- The `{text, index, keyword}` context stored for abstract/tags matches. -/
structure ContextMatch where
  text : List Char
  index : Int
  keyword : List Char
deriving DecidableEq

/-- Which fields matched where (`MatchInfo`). -/
structure MatchInfo where
  titleMatches : List MatchSpan
  authorMatches : List MatchSpan
  journalMatches : List MatchSpan
  citeKeyMatches : List MatchSpan
  abstractMatch : Option ContextMatch
  tagsMatch : Option ContextMatch
deriving DecidableEq

def emptyMatchInfo : MatchInfo :=
  ⟨[], [], [], [], none, none⟩

/-- A scored search result (`ScoredReference`). -/
structure ScoredRef where
  reference : Reference
  score : Rat
  matchInfo : MatchInfo
deriving DecidableEq

/-- `buildSearchIndex`: lowercase variants of each searchable field.
JS `a || b` on strings keeps `a` when nonempty, else `b`. -/
def buildSearchIndex (selectArray : List Reference) : List SearchableItem :=
  selectArray.map (fun item =>
    let authorOriginal :=
      if item.authorKeyFullName ≠ [] then item.authorKeyFullName else item.authorKey
    let abstractOriginal := item.abstractNote
    let tagsOriginal := List.intercalate (str (" ")) item.zoteroTags
    { item := item
      titleLower := item.title.map Char.toLower
      authorLower := authorOriginal.map Char.toLower
      authorOriginal := authorOriginal
      journalLower := item.publicationTitle.map Char.toLower
      citeKeyLower := item.citationKey.map Char.toLower
      abstractLower := abstractOriginal.map Char.toLower
      abstractOriginal := abstractOriginal
      tagsLower := tagsOriginal.map Char.toLower
      tagsOriginal := tagsOriginal })

/-- Word-character test of `isWordChar` (a-z, A-Z, 0-9, `_`), by char code. -/
def isWordChar (c : Char) : Bool :=
  (65 ≤ c.toNat && c.toNat ≤ 90) ||
  (97 ≤ c.toNat && c.toNat ≤ 122) ||
  (48 ≤ c.toNat && c.toNat ≤ 57) ||
  c.toNat == 95

/-- `isWordBoundaryMatch`: characters just before and just after the match,
if any, are not word characters (`charCodeAt` out of range gives `NaN`,
which `isWordChar` rejects, matching the `none` branches here). -/
def isWordBoundaryMatch (text : List Char) (index length : Nat) : Bool :=
  let before := index == 0 ||
    !(match text[index - 1]? with | some c => isWordChar c | none => false)
  let after := decide (text.length ≤ index + length) ||
    !(match text[index + length]? with | some c => isWordChar c | none => false)
  before && after

/-- `collectRanges`: every occurrence offset of `keyword` in `text`, ascending
(the source's `while ((pos = text.indexOf(keyword, pos)) !== -1) ... pos += 1`
loop enumerates exactly these for the nonempty keywords it is called on). -/
def collectRanges (text keyword : List Char) : List MatchSpan :=
  (List.range text.length).filterMap (fun pos =>
    if occursAt text keyword pos then some ⟨pos, pos + keyword.length⟩ else none)

/-- One field block of `scoreItem` (title/author/journal/citeKey/tags/abstract
differ only in the field, the weight, whether the `idx === 0` doubling line is
present (`zeroBonus`), and how `matchInfo` is updated). -/
def fieldStep (fieldLower keyword : List Char) (weight : Rat) (zeroBonus : Bool)
    (upd : Int → MatchInfo → MatchInfo) (st : Rat × Bool × MatchInfo) :
    Rat × Bool × MatchInfo :=
  let (keywordScore, keywordMatched, mi) := st
  let idx := jsIndexOf fieldLower keyword
  if idx ≠ -1 then
    let s := weight
    let s := if isWordBoundaryMatch fieldLower idx.toNat keyword.length then s * (3 / 2) else s
    let s := if zeroBonus && decide (idx = 0) then s * 2 else s
    (keywordScore + s, true, upd idx mi)
  else
    (keywordScore, keywordMatched, mi)

/-- The per-keyword body of `scoreItem`'s `for (const keyword of keywords)` loop. -/
def scoreStep (si : SearchableItem) (acc : Rat × Nat × MatchInfo)
    (keyword : List Char) : Rat × Nat × MatchInfo :=
  let (totalScore, matchedKeywords, mi0) := acc
  let st0 : Rat × Bool × MatchInfo := (0, false, mi0)
  let st1 := fieldStep si.titleLower keyword 100 true
    (fun _ mi => { mi with titleMatches := mi.titleMatches ++ collectRanges si.titleLower keyword }) st0
  let st2 := fieldStep si.authorLower keyword 80 true
    (fun _ mi => { mi with authorMatches := mi.authorMatches ++ collectRanges si.authorLower keyword }) st1
  let st3 := fieldStep si.journalLower keyword 60 false
    (fun _ mi => { mi with journalMatches := mi.journalMatches ++ collectRanges si.journalLower keyword }) st2
  let st4 := fieldStep si.citeKeyLower keyword 50 false
    (fun _ mi => { mi with citeKeyMatches := mi.citeKeyMatches ++ collectRanges si.citeKeyLower keyword }) st3
  let st5 :=
    if si.tagsLower.length > 0 then
      fieldStep si.tagsLower keyword 40 false
        (fun idx mi =>
          if mi.tagsMatch.isNone then { mi with tagsMatch := some ⟨si.tagsOriginal, idx, keyword⟩ } else mi) st4
    else st4
  let st6 :=
    if si.abstractLower.length > 0 then
      fieldStep si.abstractLower keyword 30 false
        (fun idx mi =>
          if mi.abstractMatch.isNone then { mi with abstractMatch := some ⟨si.abstractOriginal, idx, keyword⟩ } else mi) st5
    else st5
  if st6.2.1 then
    (totalScore + st6.1, matchedKeywords + 1, st6.2.2)
  else
    (totalScore, matchedKeywords, st6.2.2)

/-- `scoreItem`: total score and match info for one item against the keywords. -/
def scoreItem (si : SearchableItem) (keywords : List (List Char)) : Rat × MatchInfo :=
  let r := keywords.foldl (scoreStep si) ((0 : Rat), (0 : Nat), emptyMatchInfo)
  let totalScore := r.1
  let matchedKeywords := r.2.1
  let mi := r.2.2
  let totalScore :=
    if matchedKeywords = keywords.length ∧ keywords.length > 1 then totalScore * (3 / 2)
    else totalScore
  (if matchedKeywords > 0 then totalScore else 0, mi)

/-- `MAX_RESULTS`. -/
def maxResults : Nat := 50

/-- Stable insertion step for descending sort by score: the new element
(which comes earlier in the original order) goes in front of the first
element whose score is not strictly greater. -/
def insertDesc (x : ScoredRef) : List ScoredRef → List ScoredRef
  | [] => [x]
  | y :: ys => if x.score < y.score then y :: insertDesc x ys else x :: y :: ys

/-- Stable sort by descending score. JS `Array.prototype.sort` is a stable
sort, and the comparator `(a, b) => b.score - a.score` orders by strictly
greater score, ties keeping original order; this insertion sort produces
exactly that result. -/
def sortByScoreDesc : List ScoredRef → List ScoredRef
  | [] => []
  | x :: xs => insertDesc x (sortByScoreDesc xs)

/-- The scoring/filtering/sorting/truncating core of `performSearch`, for a
given search set (already resolved from the incremental-narrowing decision).
The source first accumulates `{item, score, matchInfo}` records and maps them
to `ScoredReference`s after slicing; the two records carry identical data and
are collapsed here. -/
def searchCore (searchSet : List SearchableItem) (keywords : List (List Char)) :
    List ScoredRef :=
  let scoredItems := searchSet.filterMap (fun si =>
    let r := scoreItem si keywords
    if r.1 > 0 then some ⟨si.item, r.1, r.2⟩ else none)
  (sortByScoreDesc scoredItems).take maxResults

/-- The `matchedItems` list that `performSearch` saves into `lastSearchSet`:
the members of the search set whose score was positive, in order. -/
def matchedSet (searchSet : List SearchableItem) (keywords : List (List Char)) :
    List SearchableItem :=
  searchSet.filter (fun si => (scoreItem si keywords).1 > 0)

/-- The incremental-narrowing decision of `performSearch`: reuse the previous
matched set when the previous query is a nonempty prefix of the new one and
that set is strictly smaller than the index, else the full index. -/
def resolveSearchSet (searchIndex : List SearchableItem)
    (prevQuery lowerQuery : List Char)
    (lastSearchSet : Option (List SearchableItem)) : List SearchableItem :=
  match lastSearchSet with
  | some s =>
    if prevQuery ≠ [] ∧ isPrefixB prevQuery lowerQuery = true ∧
        s.length < searchIndex.length then s
    else searchIndex
  | none => searchIndex

/-- `performSearch`, as a function of the modal state it reads:
the select array (from which `buildSearchIndex` precomputed `searchIndex`),
`lastSearchQuery`, `lastSearchSet`, and the new query. -/
def performSearch (selectArray : List Reference) (lastSearchQuery : List Char)
    (lastSearchSet : Option (List SearchableItem)) (query : List Char) :
    List ScoredRef :=
  let searchIndex := buildSearchIndex selectArray
  let lowerQuery := jsTrim (query.map Char.toLower)
  let keywords := (splitRaw lowerQuery).filter (fun kw => kw.length > 0)
  if keywords.length = 0 then
    selectArray.map (fun item => ⟨item, 0, emptyMatchInfo⟩)
  else
    let prevQuery := jsTrim (lastSearchQuery.map Char.toLower)
    searchCore (resolveSearchSet searchIndex prevQuery lowerQuery lastSearchSet)
      keywords

/-!
Specification-side restatement of the scoring rules (written from the spec's
words, to be compared with the transcription `scoreItem` above).
-/

/-- Spec wording: if the keyword occurs as a substring of the lowercased
field, take the field's base weight, times 1.5 when the (first) occurrence
sits at a token boundary, times 2 when it starts at offset 0 — the latter
only for the fields flagged `zeroBonus` (title and author). -/
def specFieldScore (fieldLower keyword : List Char) (weight : Rat)
    (zeroBonus : Bool) : Rat :=
  if containsB fieldLower keyword then
    weight *
      (if isWordBoundaryMatch fieldLower (firstOccIdx fieldLower keyword) keyword.length
        then 3 / 2 else 1) *
      (if zeroBonus && decide (firstOccIdx fieldLower keyword = 0) then 2 else 1)
  else 0

/-- Spec wording: a keyword's score is the sum of its six field contributions
(title 100, author 80, venue/journal 60, citation key 50, tag 40, abstract 30;
offset-0 doubling only for title and author). -/
def specKeywordScore (si : SearchableItem) (keyword : List Char) : Rat :=
  specFieldScore si.titleLower keyword 100 true +
  specFieldScore si.authorLower keyword 80 true +
  specFieldScore si.journalLower keyword 60 false +
  specFieldScore si.citeKeyLower keyword 50 false +
  specFieldScore si.tagsLower keyword 40 false +
  specFieldScore si.abstractLower keyword 30 false

/-- A keyword matches an entry when it occurs in at least one field. -/
def keywordMatchesB (si : SearchableItem) (keyword : List Char) : Bool :=
  ((((containsB si.titleLower keyword || containsB si.authorLower keyword) ||
    containsB si.journalLower keyword) || containsB si.citeKeyLower keyword) ||
    containsB si.tagsLower keyword) || containsB si.abstractLower keyword

/-- Spec wording: the entry total is the sum of the per-keyword scores,
multiplied by 1.5 when the query has more than one keyword and every
keyword matched. -/
def specEntryScore (si : SearchableItem) (keywords : List (List Char)) : Rat :=
  let total := (keywords.map (specKeywordScore si)).sum
  if keywords.length > 1 ∧ keywords.all (fun k => keywordMatchesB si k) then
    total * (3 / 2)
  else total

theorem fieldStep_of_not_contains {f kw : List Char} {w : Rat} {zb : Bool}
    {upd : Int → MatchInfo → MatchInfo} {ks : Rat} {m : Bool} {mi : MatchInfo}
    (hc : containsB f kw = false) :
    fieldStep f kw w zb upd (ks, m, mi) = (ks, m, mi) := by
  have hne : jsIndexOf f kw = -1 := jsIndexOf_eq_neg_one_iff.mpr hc
  simp only [fieldStep, hne]
  simp

theorem fieldStep_of_contains {f kw : List Char} {w : Rat} {zb : Bool}
    {upd : Int → MatchInfo → MatchInfo} {ks : Rat} {m : Bool} {mi : MatchInfo}
    (hc : containsB f kw = true) :
    (fieldStep f kw w zb upd (ks, m, mi)).1 = ks + specFieldScore f kw w zb ∧
    (fieldStep f kw w zb upd (ks, m, mi)).2.1 = true := by
  have hidx : jsIndexOf f kw = (firstOccIdx f kw : Int) := jsIndexOf_of_contains hc
  have hne : jsIndexOf f kw ≠ -1 := by
    rw [hidx]
    omega
  have htn : (jsIndexOf f kw).toNat = firstOccIdx f kw := by
    rw [hidx]
    simp
  have h0 : decide (jsIndexOf f kw = 0) = decide (firstOccIdx f kw = 0) := by
    have : (jsIndexOf f kw = 0) ↔ (firstOccIdx f kw = 0) := by
      rw [hidx]
      omega
    exact decide_eq_decide.mpr this
  simp only [fieldStep]
  rw [if_pos hne]
  simp only [htn, h0]
  simp only [specFieldScore, if_pos hc]
  constructor
  · by_cases hb : isWordBoundaryMatch f (firstOccIdx f kw) kw.length = true
    · by_cases hz : (zb && decide (firstOccIdx f kw = 0)) = true
      · simp [hb, hz]
      · simp [hb, hz]
    · by_cases hz : (zb && decide (firstOccIdx f kw = 0)) = true
      · simp [hb, hz]
      · simp [hb, hz]
  · simp

theorem fieldStep_eval (f kw : List Char) (w : Rat) (zb : Bool)
    (upd : Int → MatchInfo → MatchInfo) (ks : Rat) (m : Bool) (mi : MatchInfo) :
    (fieldStep f kw w zb upd (ks, m, mi)).1 = ks + specFieldScore f kw w zb ∧
    (fieldStep f kw w zb upd (ks, m, mi)).2.1 = (m || containsB f kw) := by
  by_cases hc : containsB f kw = true
  · have h := @fieldStep_of_contains f kw w zb upd ks m mi hc
    rw [hc]
    simpa using h
  · have hc' : containsB f kw = false := by
      cases h : containsB f kw
      · rfl
      · exact absurd h hc
    rw [fieldStep_of_not_contains hc', hc']
    simp [specFieldScore, hc']

theorem fieldStep_fst (f kw : List Char) (w : Rat) (zb : Bool)
    (upd : Int → MatchInfo → MatchInfo) (st : Rat × Bool × MatchInfo) :
    (fieldStep f kw w zb upd st).1 = st.1 + specFieldScore f kw w zb := by
  obtain ⟨ks, m, mi⟩ := st
  exact (fieldStep_eval f kw w zb upd ks m mi).1

theorem fieldStep_snd (f kw : List Char) (w : Rat) (zb : Bool)
    (upd : Int → MatchInfo → MatchInfo) (st : Rat × Bool × MatchInfo) :
    (fieldStep f kw w zb upd st).2.1 = (st.2.1 || containsB f kw) := by
  obtain ⟨ks, m, mi⟩ := st
  exact (fieldStep_eval f kw w zb upd ks m mi).2

/-- The `tagsLower.length > 0` / `abstractLower.length > 0` guards in
`scoreItem` are redundant for the nonempty keywords the search produces:
`indexOf` on the empty field misses anyway. -/
theorem guard_fieldStep (f kw : List Char) (hkw : kw ≠ []) (w : Rat) (zb : Bool)
    (upd : Int → MatchInfo → MatchInfo) (st : Rat × Bool × MatchInfo) :
    (if f.length > 0 then fieldStep f kw w zb upd st else st) =
      fieldStep f kw w zb upd st := by
  by_cases h : f.length > 0
  · rw [if_pos h]
  · rw [if_neg h]
    have hf : f = [] := by
      cases f
      · rfl
      · simp at h
    subst hf
    obtain ⟨ks, m, mi⟩ := st
    rw [fieldStep_of_not_contains (containsB_nil_hay hkw)]

theorem specFieldScore_of_not_contains {f kw : List Char} {w : Rat} {zb : Bool}
    (hc : containsB f kw = false) : specFieldScore f kw w zb = 0 := by
  simp [specFieldScore, hc]

theorem specKeywordScore_of_not_matches {si : SearchableItem} {kw : List Char}
    (h : keywordMatchesB si kw = false) : specKeywordScore si kw = 0 := by
  simp only [keywordMatchesB, Bool.or_eq_false_iff] at h
  obtain ⟨⟨⟨⟨⟨h1, h2⟩, h3⟩, h4⟩, h5⟩, h6⟩ := h
  simp [specKeywordScore, specFieldScore_of_not_contains, h1, h2, h3, h4, h5, h6]

theorem scoreStep_eval (si : SearchableItem) (kw : List Char) (hkw : kw ≠ [])
    (t : Rat) (c : Nat) (mi0 : MatchInfo) :
    (scoreStep si (t, c, mi0) kw).1 = t + specKeywordScore si kw ∧
    (scoreStep si (t, c, mi0) kw).2.1 =
      c + (if keywordMatchesB si kw then 1 else 0) := by
  simp only [scoreStep]
  rw [guard_fieldStep si.tagsLower kw hkw, guard_fieldStep si.abstractLower kw hkw]
  simp only [fieldStep_snd, fieldStep_fst, Bool.false_or]
  constructor
  · split
    · show t + _ = _
      simp only [specKeywordScore]
      ring
    · next h =>
      have hm : keywordMatchesB si kw = false := by
        have := Bool.not_eq_true _ |>.mp h
        exact this
      show t = t + specKeywordScore si kw
      rw [specKeywordScore_of_not_matches hm]
      ring
  · split
    · next h =>
      have hm : keywordMatchesB si kw = true := h
      rw [hm]
      simp
    · next h =>
      have hm : keywordMatchesB si kw = false := by
        have := Bool.not_eq_true _ |>.mp h
        exact this
      rw [hm]
      simp

theorem foldl_scoreStep (si : SearchableItem) (kws : List (List Char))
    (hkws : ∀ k ∈ kws, k ≠ []) (t : Rat) (c : Nat) (mi0 : MatchInfo) :
    (kws.foldl (scoreStep si) (t, c, mi0)).1 =
      t + (kws.map (specKeywordScore si)).sum ∧
    (kws.foldl (scoreStep si) (t, c, mi0)).2.1 =
      c + kws.countP (fun k => keywordMatchesB si k) := by
  induction kws generalizing t c mi0 with
  | nil => simp
  | cons k ks ih =>
    have hk : k ≠ [] := hkws k (List.mem_cons_self _ _)
    have hks : ∀ x ∈ ks, x ≠ [] := fun x hx => hkws x (List.mem_cons_of_mem _ hx)
    rw [List.foldl_cons]
    rcases hst : scoreStep si (t, c, mi0) k with ⟨t1, c1, mi1⟩
    obtain ⟨he1, he2⟩ := scoreStep_eval si k hk t c mi0
    rw [hst] at he1 he2
    simp only at he1 he2
    obtain ⟨ih1, ih2⟩ := ih hks t1 c1 mi1
    constructor
    · rw [ih1, he1, List.map_cons, List.sum_cons]
      ring
    · rw [ih2, he2, List.countP_cons]
      by_cases hm : keywordMatchesB si k = true
      · simp [hm]
        omega
      · have hm' : keywordMatchesB si k = false := by
          cases h : keywordMatchesB si k
          · rfl
          · exact absurd h hm
        simp [hm']

theorem specFieldScore_nonneg {f kw : List Char} {w : Rat} {zb : Bool}
    (hw : 0 ≤ w) : 0 ≤ specFieldScore f kw w zb := by
  unfold specFieldScore
  split
  · split <;> split <;> positivity
  · exact le_refl 0

theorem specFieldScore_pos {f kw : List Char} {w : Rat} {zb : Bool}
    (hw : 0 < w) (hc : containsB f kw = true) : 0 < specFieldScore f kw w zb := by
  unfold specFieldScore
  rw [if_pos hc]
  split <;> split <;> positivity

theorem specKeywordScore_nonneg (si : SearchableItem) (kw : List Char) :
    0 ≤ specKeywordScore si kw := by
  unfold specKeywordScore
  have h1 := @specFieldScore_nonneg si.titleLower kw 100 true (by norm_num)
  have h2 := @specFieldScore_nonneg si.authorLower kw 80 true (by norm_num)
  have h3 := @specFieldScore_nonneg si.journalLower kw 60 false (by norm_num)
  have h4 := @specFieldScore_nonneg si.citeKeyLower kw 50 false (by norm_num)
  have h5 := @specFieldScore_nonneg si.tagsLower kw 40 false (by norm_num)
  have h6 := @specFieldScore_nonneg si.abstractLower kw 30 false (by norm_num)
  linarith

theorem specKeywordScore_pos {si : SearchableItem} {kw : List Char}
    (h : keywordMatchesB si kw = true) : 0 < specKeywordScore si kw := by
  have h1 := @specFieldScore_nonneg si.titleLower kw (100 : Rat) true (by norm_num)
  have h2 := @specFieldScore_nonneg si.authorLower kw (80 : Rat) true (by norm_num)
  have h3 := @specFieldScore_nonneg si.journalLower kw (60 : Rat) false (by norm_num)
  have h4 := @specFieldScore_nonneg si.citeKeyLower kw (50 : Rat) false (by norm_num)
  have h5 := @specFieldScore_nonneg si.tagsLower kw (40 : Rat) false (by norm_num)
  have h6 := @specFieldScore_nonneg si.abstractLower kw (30 : Rat) false (by norm_num)
  unfold specKeywordScore
  simp only [keywordMatchesB, Bool.or_eq_true] at h
  rcases h with ((((hc | hc) | hc) | hc) | hc) | hc
  · have := @specFieldScore_pos si.titleLower kw (100 : Rat) true (by norm_num) hc
    linarith
  · have := @specFieldScore_pos si.authorLower kw (80 : Rat) true (by norm_num) hc
    linarith
  · have := @specFieldScore_pos si.journalLower kw (60 : Rat) false (by norm_num) hc
    linarith
  · have := @specFieldScore_pos si.citeKeyLower kw (50 : Rat) false (by norm_num) hc
    linarith
  · have := @specFieldScore_pos si.tagsLower kw (40 : Rat) false (by norm_num) hc
    linarith
  · have := @specFieldScore_pos si.abstractLower kw (30 : Rat) false (by norm_num) hc
    linarith

theorem list_sum_pos_of_mem {l : List Rat} (hall : ∀ x ∈ l, 0 ≤ x)
    {y : Rat} (hy : y ∈ l) (hypos : 0 < y) : 0 < l.sum := by
  induction l with
  | nil => simp at hy
  | cons x xs ih =>
    rw [List.sum_cons]
    rcases List.mem_cons.mp hy with h | h
    · subst h
      have : 0 ≤ xs.sum :=
        List.sum_nonneg (fun x hx => hall x (List.mem_cons_of_mem _ hx))
      linarith
    · have hx : 0 ≤ x := hall x (List.mem_cons_self _ _)
      have := ih (fun z hz => hall z (List.mem_cons_of_mem _ hz)) h
      linarith

theorem scoreItem_eq_spec (si : SearchableItem) (kws : List (List Char))
    (hkws : ∀ k ∈ kws, k ≠ []) :
    (scoreItem si kws).1 = specEntryScore si kws := by
  obtain ⟨h1, h2⟩ := foldl_scoreStep si kws hkws 0 0 emptyMatchInfo
  rw [zero_add] at h1
  rw [Nat.zero_add] at h2
  have hbridge : (kws.countP (fun k => keywordMatchesB si k) = kws.length) ↔
      (kws.all (fun k => keywordMatchesB si k) = true) := by
    rw [List.countP_eq_length, List.all_eq_true]
  simp only [scoreItem, specEntryScore]
  rw [h1, h2]
  by_cases hp : kws.countP (fun k => keywordMatchesB si k) > 0
  · rw [if_pos hp]
    by_cases hb : kws.countP (fun k => keywordMatchesB si k) = kws.length ∧
        kws.length > 1
    · rw [if_pos hb]
      have hspec : kws.length > 1 ∧ kws.all (fun k => keywordMatchesB si k) = true :=
        ⟨hb.2, hbridge.mp hb.1⟩
      rw [if_pos hspec]
    · rw [if_neg hb]
      have hspec : ¬(kws.length > 1 ∧ kws.all (fun k => keywordMatchesB si k) = true) := by
        rintro ⟨hl, ha⟩
        exact hb ⟨hbridge.mpr ha, hl⟩
      rw [if_neg hspec]
  · rw [if_neg hp]
    have hcp : kws.countP (fun k => keywordMatchesB si k) = 0 := by omega
    have hsum : (kws.map (specKeywordScore si)).sum = 0 := by
      apply List.sum_eq_zero
      intro x hx
      obtain ⟨k, hk, rfl⟩ := List.mem_map.mp hx
      rw [List.countP_eq_zero] at hcp
      have hm' : keywordMatchesB si k = false := by
        cases hkk : keywordMatchesB si k
        · rfl
        · exact absurd (by simpa using hkk) (by simpa using hcp k hk)
      exact specKeywordScore_of_not_matches hm'
    rw [hsum]
    split <;> norm_num

theorem scoreItem_pos_iff (si : SearchableItem) (kws : List (List Char))
    (hkws : ∀ k ∈ kws, k ≠ []) :
    (scoreItem si kws).1 > 0 ↔ ∃ k ∈ kws, keywordMatchesB si k = true := by
  obtain ⟨h1, h2⟩ := foldl_scoreStep si kws hkws 0 0 emptyMatchInfo
  rw [zero_add] at h1
  rw [Nat.zero_add] at h2
  simp only [scoreItem]
  rw [h1, h2]
  constructor
  · intro hpos
    by_cases hp : kws.countP (fun k => keywordMatchesB si k) > 0
    · obtain ⟨k, hk, hm⟩ := List.countP_pos.mp hp
      exact ⟨k, hk, by simpa using hm⟩
    · rw [if_neg hp] at hpos
      exact absurd hpos (lt_irrefl 0)
  · rintro ⟨k, hk, hm⟩
    have hp : kws.countP (fun k => keywordMatchesB si k) > 0 :=
      List.countP_pos.mpr ⟨k, hk, by simpa using hm⟩
    rw [if_pos hp]
    have hsumpos : 0 < (kws.map (specKeywordScore si)).sum := by
      refine list_sum_pos_of_mem ?_ (List.mem_map_of_mem (specKeywordScore si) hk) ?_
      · intro x hx
        obtain ⟨k2, _, rfl⟩ := List.mem_map.mp hx
        exact specKeywordScore_nonneg si k2
      · exact specKeywordScore_pos hm
    split
    · linarith
    · exact hsumpos

theorem keywordsOf_all_ne_nil (q : List Char) : ∀ k ∈ keywordsOf q, k ≠ [] := by
  intro k hk
  simp only [keywordsOf, List.mem_filter] at hk
  intro h
  subst h
  simpa using hk.2

theorem keywordMatchesB_mono {si : SearchableItem} {k p : List Char}
    (hm : keywordMatchesB si k = true) (hinf : containsB k p = true) :
    keywordMatchesB si p = true := by
  simp only [keywordMatchesB, Bool.or_eq_true] at hm ⊢
  rcases hm with ((((hc | hc) | hc) | hc) | hc) | hc
  · exact Or.inl (Or.inl (Or.inl (Or.inl (Or.inl (containsB_trans hc hinf)))))
  · exact Or.inl (Or.inl (Or.inl (Or.inl (Or.inr (containsB_trans hc hinf)))))
  · exact Or.inl (Or.inl (Or.inl (Or.inr (containsB_trans hc hinf))))
  · exact Or.inl (Or.inl (Or.inr (containsB_trans hc hinf)))
  · exact Or.inl (Or.inr (containsB_trans hc hinf))
  · exact Or.inr (containsB_trans hc hinf)

theorem filterMap_filter_eq {α β : Type} (p : α → Bool) (f : α → Option β)
    (l : List α) (h : ∀ x ∈ l, (f x).isSome = true → p x = true) :
    (l.filter p).filterMap f = l.filterMap f := by
  induction l with
  | nil => rfl
  | cons x xs ih =>
    have hxs := fun z hz => h z (List.mem_cons_of_mem _ hz)
    cases hp : p x with
    | true =>
      rw [List.filter_cons_of_pos hp, List.filterMap_cons, List.filterMap_cons]
      cases hf : f x with
      | none => exact ih hxs
      | some b => rw [ih hxs]
    | false =>
      rw [List.filter_cons_of_neg (by simp [hp]), List.filterMap_cons]
      cases hf : f x with
      | none => exact ih hxs
      | some b =>
        have : p x = true := h x (List.mem_cons_self _ _) (by simp [hf])
        rw [this] at hp
        cases hp

/-- If every keyword of the new query extends (contains as a substring) some
keyword of the previous query, every item scoring positively on the new
query also scored positively on the previous one. -/
theorem score_pos_of_extension {si : SearchableItem} {K P : List (List Char)}
    (hK : ∀ k ∈ K, k ≠ []) (hP : ∀ k ∈ P, k ≠ [])
    (hext : ∀ k ∈ K, ∃ p ∈ P, containsB k p = true)
    (hpos : (scoreItem si K).1 > 0) : (scoreItem si P).1 > 0 := by
  obtain ⟨k, hk, hm⟩ := (scoreItem_pos_iff si K hK).mp hpos
  obtain ⟨p, hp, hinf⟩ := hext k hk
  exact (scoreItem_pos_iff si P hP).mpr ⟨p, hp, keywordMatchesB_mono hm hinf⟩

/-- Sample entries used for concrete evaluations. -/
def refCat : Reference :=
  { citationKey := str ("cat1"), title := str ("cat"), date := []
    dateModified := [], publicationTitle := [], abstractNote := []
    authorKey := [], authorKeyFullName := [], zoteroTags := [] }

def refDog : Reference :=
  { citationKey := str ("dog1"), title := str ("dog"), date := []
    dateModified := [], publicationTitle := [], abstractNote := []
    authorKey := [], authorKeyFullName := [], zoteroTags := [] }

def siSample : SearchableItem :=
  { item := refCat, titleLower := str ("cat"), authorLower := []
    authorOriginal := [], journalLower := [], citeKeyLower := str ("cat1")
    abstractLower := [], abstractOriginal := [], tagsLower := []
    tagsOriginal := [] }

/-- C1 counterexample: corpus {title "cat", title "dog"}, previous query
"cat", new query "cat dog" (a left-extension). The incremental path rescoring
only the previous matched set misses the entry that matches only the newly
added keyword "dog", while the full-corpus path returns it: the two ranked
outputs differ. -/
theorem incremental_search_counterexample :
    performSearch [refCat, refDog] (str ("cat"))
        (some (matchedSet (buildSearchIndex [refCat, refDog])
          (keywordsOf (str ("cat")))))
        (str ("cat dog")) ≠
      performSearch [refCat, refDog] (str ("cat")) none (str ("cat dog")) := by
  with_unfolding_all decide

theorem searchCore_matchedSet_eq (idx : List SearchableItem)
    (P K : List (List Char)) (hP : ∀ k ∈ P, k ≠ []) (hK : ∀ k ∈ K, k ≠ [])
    (hext : ∀ k ∈ K, ∃ p ∈ P, containsB k p = true) :
    searchCore (matchedSet idx P) K = searchCore idx K := by
  simp only [searchCore, matchedSet]
  have himp : ∀ si ∈ idx,
      ((if (scoreItem si K).1 > 0 then
          some (⟨si.item, (scoreItem si K).1, (scoreItem si K).2⟩ : ScoredRef)
        else none).isSome = true) →
      (decide ((scoreItem si P).1 > 0)) = true := by
    intro si _ hsome
    by_cases hpos : (scoreItem si K).1 > 0
    · exact decide_eq_true (score_pos_of_extension hK hP hext hpos)
    · rw [if_neg hpos] at hsome
      simp at hsome
  rw [filterMap_filter_eq _ _ _ himp]

/-- C1 (amended): the incremental path (rescoring only the previous query's
matched set) agrees with the full-corpus path whenever every keyword of the
new query contains some keyword of the previous query as a substring — in
particular for left-extensions that do not introduce a new
whitespace-separated keyword. -/
theorem incremental_search_agrees (selectArray : List Reference)
    (prevQ newQ : List Char)
    (hext : ∀ k ∈ keywordsOf newQ, ∃ p ∈ keywordsOf prevQ, containsB k p = true) :
    performSearch selectArray prevQ
        (some (matchedSet (buildSearchIndex selectArray) (keywordsOf prevQ)))
        newQ =
      performSearch selectArray prevQ none newQ := by
  simp only [performSearch]
  have hfold : (splitRaw (jsTrim (newQ.map Char.toLower))).filter
      (fun kw => kw.length > 0) = keywordsOf newQ := rfl
  rw [hfold]
  by_cases hz : (keywordsOf newQ).length = 0
  · rw [if_pos hz, if_pos hz]
  · rw [if_neg hz, if_neg hz]
    simp only [resolveSearchSet]
    split
    · exact searchCore_matchedSet_eq (buildSearchIndex selectArray)
        (keywordsOf prevQ) (keywordsOf newQ)
        (keywordsOf_all_ne_nil prevQ) (keywordsOf_all_ne_nil newQ) hext
    · rfl

theorem incremental_search_agrees_witness :
    (∀ k ∈ keywordsOf (str ("catx")),
        ∃ p ∈ keywordsOf (str ("cat")), containsB k p = true) ∧
    performSearch [refCat, refDog] (str ("cat"))
        (some (matchedSet (buildSearchIndex [refCat, refDog])
          (keywordsOf (str ("cat")))))
        (str ("catx")) =
      performSearch [refCat, refDog] (str ("cat")) none (str ("catx")) :=
  ⟨by decide, incremental_search_agrees [refCat, refDog] (str ("cat"))
    (str ("catx")) (by decide)⟩

/-- C2: the search score is computed per keyword and per field — base weight
when the keyword occurs as a substring (title 100, author 80, venue/journal
60, citation key 50, tag 40, abstract 30), times 1.5 at a token boundary,
times an additional 2 at offset 0 for title and author only — summed over
fields and matched keywords, with the total multiplied by 1.5 when the query
has more than one keyword and every keyword matched. -/
theorem scoreItem_implements_weighted_scoring (si : SearchableItem)
    (keywords : List (List Char)) (hne : keywords ≠ [])
    (hkw : ∀ k ∈ keywords, k ≠ []) :
    (scoreItem si keywords).1 = specEntryScore si keywords :=
  scoreItem_eq_spec si keywords hkw

theorem scoreItem_implements_weighted_scoring_witness :
    (([str ("cat")] : List (List Char)) ≠ []) ∧
    (∀ k ∈ [str ("cat")], k ≠ ([] : List Char)) ∧
    (scoreItem siSample [str ("cat")]).1 = specEntryScore siSample [str ("cat")] :=
  ⟨by decide, by decide,
    scoreItem_implements_weighted_scoring siSample [str ("cat")]
      (by decide) (by decide)⟩

theorem toLower_preserves_ws {c : Char} (h : isWs c = true) :
    isWs (Char.toLower c) = true := by
  simp only [isWs, Bool.or_eq_true, beq_iff_eq] at h
  rcases h with ((((h | h) | h) | h) | h) | h <;> subst h <;> decide

theorem keywordsOf_eq_nil_of_ws {q : List Char} (hq : ∀ c ∈ q, isWs c = true) :
    keywordsOf q = [] := by
  have hlow : ∀ c ∈ q.map Char.toLower, isWs c = true := by
    intro c hc
    obtain ⟨d, hd, rfl⟩ := List.mem_map.mp hc
    exact toLower_preserves_ws (hq d hd)
  have hdrop : (q.map Char.toLower).dropWhile isWs = [] := by
    rw [List.dropWhile_eq_nil_iff]
    intro c hc
    exact hlow c hc
  simp [keywordsOf, jsTrim, hdrop, splitRaw]

/-- C4: searching with an empty or all-whitespace query never errors (the
model is a total function) and returns exactly one result per corpus entry,
each with score 0, in the original corpus order, with no filtering. -/
theorem empty_query_full_corpus (selectArray : List Reference)
    (lastQ : List Char) (lastSet : Option (List SearchableItem))
    (query : List Char) (hq : ∀ c ∈ query, isWs c = true) :
    performSearch selectArray lastQ lastSet query =
      selectArray.map (fun item => ⟨item, 0, emptyMatchInfo⟩) := by
  have hkw := keywordsOf_eq_nil_of_ws hq
  simp only [performSearch]
  have hfold : (splitRaw (jsTrim (query.map Char.toLower))).filter
      (fun kw => kw.length > 0) = keywordsOf query := rfl
  rw [hfold, hkw]
  simp

theorem empty_query_full_corpus_witness :
    (∀ c ∈ str ("  "), isWs c = true) ∧
    performSearch [refCat] [] none (str ("  ")) =
      [refCat].map (fun item => (⟨item, 0, emptyMatchInfo⟩ : ScoredRef)) :=
  ⟨by decide, empty_query_full_corpus [refCat] [] none (str ("  ")) (by decide)⟩

theorem mem_insertDesc {z x : ScoredRef} {l : List ScoredRef} :
    z ∈ insertDesc x l ↔ z = x ∨ z ∈ l := by
  induction l with
  | nil => simp [insertDesc]
  | cons y ys ih =>
    simp only [insertDesc]
    split
    · simp only [List.mem_cons, ih]
      tauto
    · simp only [List.mem_cons]

theorem pairwise_insertDesc (x : ScoredRef) (l : List ScoredRef)
    (hl : l.Pairwise (fun a b => b.score ≤ a.score)) :
    (insertDesc x l).Pairwise (fun a b => b.score ≤ a.score) := by
  induction l with
  | nil => simp [insertDesc]
  | cons y ys ih =>
    rw [List.pairwise_cons] at hl
    obtain ⟨hy, hys⟩ := hl
    simp only [insertDesc]
    split
    · next hlt =>
      rw [List.pairwise_cons]
      refine ⟨?_, ih hys⟩
      intro z hz
      rcases mem_insertDesc.mp hz with h | h
      · subst h
        exact le_of_lt hlt
      · exact hy z h
    · next hlt =>
      rw [List.pairwise_cons]
      constructor
      · intro z hz
        rcases List.mem_cons.mp hz with h | h
        · subst h
          exact le_of_not_lt hlt
        · exact le_trans (hy z h) (le_of_not_lt hlt)
      · rw [List.pairwise_cons]
        exact ⟨hy, hys⟩

theorem pairwise_sortByScoreDesc (l : List ScoredRef) :
    (sortByScoreDesc l).Pairwise (fun a b => b.score ≤ a.score) := by
  induction l with
  | nil => simp [sortByScoreDesc]
  | cons x xs ih => exact pairwise_insertDesc x _ ih

theorem filter_insertDesc (x : ScoredRef) (l : List ScoredRef) (q : Rat) :
    (insertDesc x l).filter (fun r => r.score = q) =
      if x.score = q then x :: l.filter (fun r => r.score = q)
      else l.filter (fun r => r.score = q) := by
  induction l with
  | nil =>
    simp only [insertDesc]
    split
    · next h => simp [List.filter_cons, h]
    · next h => simp [List.filter_cons, h]
  | cons y ys ih =>
    simp only [insertDesc]
    split
    · next hlt =>
      by_cases hx : x.score = q
      · have hy : ¬ (y.score = q) := by
          intro h
          rw [hx] at hlt
          rw [h] at hlt
          exact lt_irrefl q hlt
        rw [if_pos hx]
        rw [List.filter_cons_of_neg (by simpa using hy), ih, if_pos hx,
          List.filter_cons_of_neg (by simpa using hy)]
      · rw [if_neg hx]
        by_cases hy : y.score = q
        · rw [List.filter_cons_of_pos (by simpa using hy), ih, if_neg hx,
            List.filter_cons_of_pos (by simpa using hy)]
        · rw [List.filter_cons_of_neg (by simpa using hy), ih, if_neg hx,
            List.filter_cons_of_neg (by simpa using hy)]
    · next hlt =>
      by_cases hx : x.score = q
      · rw [if_pos hx, List.filter_cons_of_pos (by simpa using hx)]
      · rw [if_neg hx, List.filter_cons_of_neg (by simpa using hx)]

theorem filter_sortByScoreDesc (l : List ScoredRef) (q : Rat) :
    (sortByScoreDesc l).filter (fun r => r.score = q) =
      l.filter (fun r => r.score = q) := by
  induction l with
  | nil => rfl
  | cons x xs ih =>
    simp only [sortByScoreDesc]
    rw [filter_insertDesc, ih, List.filter_cons]
    split
    · next h => rw [if_pos (by simpa using h)]
    · next h => rw [if_neg (by simpa using h)]

theorem length_insertDesc (x : ScoredRef) (l : List ScoredRef) :
    (insertDesc x l).length = l.length + 1 := by
  induction l with
  | nil => rfl
  | cons y ys ih =>
    simp only [insertDesc]
    split
    · simp [ih]
    · simp

/-- The list of all positively scored entries of the full corpus, in corpus
order (the pre-sort `scoredItems` of the full-corpus path). -/
def allScored (selectArray : List Reference) (keywords : List (List Char)) :
    List ScoredRef :=
  (buildSearchIndex selectArray).filterMap (fun si =>
    let r := scoreItem si keywords
    if r.1 > 0 then some ⟨si.item, r.1, r.2⟩ else none)

theorem resolveSearchSet_sublist (idx : List SearchableItem)
    (pq lq : List Char) (lastSet : Option (List SearchableItem))
    (hsub : ∀ s, lastSet = some s → s.Sublist idx) :
    (resolveSearchSet idx pq lq lastSet).Sublist idx := by
  rcases lastSet with _ | s
  · exact List.Sublist.refl _
  · simp only [resolveSearchSet]
    split
    · exact hsub s rfl
    · exact List.Sublist.refl _

theorem searchCore_props (idx S : List SearchableItem) (K : List (List Char))
    (hS : S.Sublist idx) :
    (searchCore S K).length ≤ 50 ∧
    (searchCore S K).Pairwise (fun a b : ScoredRef => b.score ≤ a.score) ∧
    ∀ q : Rat, ((searchCore S K).filter (fun r => r.score = q)).Sublist
      (idx.filterMap (fun si =>
        let r := scoreItem si K
        if r.1 > 0 then some ⟨si.item, r.1, r.2⟩ else none)) := by
  refine ⟨?_, ?_, ?_⟩
  · simp only [searchCore]
    exact le_trans (List.length_take_le _ _) (le_refl _)
  · simp only [searchCore]
    exact (pairwise_sortByScoreDesc _).sublist (List.take_sublist _ _)
  · intro q
    simp only [searchCore]
    have h1 : (((sortByScoreDesc (S.filterMap (fun si =>
        let r := scoreItem si K
        if r.1 > 0 then some ⟨si.item, r.1, r.2⟩ else none))).take maxResults).filter
          (fun r => r.score = q)).Sublist
        ((sortByScoreDesc (S.filterMap (fun si =>
        let r := scoreItem si K
        if r.1 > 0 then some ⟨si.item, r.1, r.2⟩ else none))).filter
          (fun r => r.score = q)) :=
      List.Sublist.filter _ (List.take_sublist _ _)
    rw [filter_sortByScoreDesc] at h1
    refine h1.trans ?_
    refine List.Sublist.trans (List.filter_sublist _) ?_
    exact hS.filterMap _

/-- C3 (amended): for every query with at least one keyword, the search
returns at most 50 results, sorted by descending score, and entries with
equal scores appear in the original corpus order (the per-score slices of
the output are subsequences of the corpus-ordered scored list). For the
empty or all-whitespace query the search instead returns the whole corpus
in order (see the empty-query theorem), so the 50 cap does not apply there. -/
theorem search_results_capped_and_stable (selectArray : List Reference)
    (lastQ : List Char) (lastSet : Option (List SearchableItem))
    (query : List Char) (hkw : keywordsOf query ≠ [])
    (hsub : ∀ s, lastSet = some s → s.Sublist (buildSearchIndex selectArray)) :
    (performSearch selectArray lastQ lastSet query).length ≤ 50 ∧
    (performSearch selectArray lastQ lastSet query).Pairwise
      (fun a b : ScoredRef => b.score ≤ a.score) ∧
    ∀ q : Rat, ((performSearch selectArray lastQ lastSet query).filter
      (fun r => r.score = q)).Sublist (allScored selectArray (keywordsOf query)) := by
  simp only [performSearch]
  have hfold : (splitRaw (jsTrim (query.map Char.toLower))).filter
      (fun kw => kw.length > 0) = keywordsOf query := rfl
  rw [hfold]
  have hz : ¬ ((keywordsOf query).length = 0) := by
    intro h
    exact hkw (List.length_eq_zero.mp h)
  rw [if_neg hz]
  exact searchCore_props _ _ _ (resolveSearchSet_sublist _ _ _ _ hsub)

theorem search_results_capped_and_stable_witness :
    (keywordsOf (str ("cat")) ≠ []) ∧
    (performSearch [refCat, refDog] [] none (str ("cat"))).length ≤ 50 :=
  ⟨by decide,
    (search_results_capped_and_stable [refCat, refDog] [] none (str ("cat"))
      (by decide) (by intro s hs; cases hs)).1⟩

/-- C3 counterexample: on a corpus of 51 entries the empty query returns all
51 results — the claimed 50 cap fails for the empty query. -/
theorem result_cap_counterexample :
    ¬ ((performSearch (List.replicate 51 refCat) [] none []).length ≤ 50) := by
  with_unfolding_all decide

/-!
Cache store (`ZoteroCacheManager` in zotero-cache.ts).
-/

structure CollectionC where
  key : List Char
  name : List Char
  parent : List Char
  items : List (List Char)
deriving DecidableEq

structure ZoteroCache where
  version : Nat
  lastModified : List Char
  dbLastModified : Int
  items : List Reference
  collections : List (List Char × CollectionC)
  itemIndex : List (List Char × Nat)
deriving DecidableEq

/-- `hasDbChanged`, with the db file's current modification time passed in
(`getDbModificationTime` returns `mtimeMs`, or `0` when the file is missing). -/
def hasDbChanged (dbModifiedTime : Int) (cache : Option ZoteroCache) : Bool :=
  if dbModifiedTime = 0 then true
  else
    match cache with
    | none => true
    | some c => decide (dbModifiedTime > c.dbLastModified)

/-- JS object assignment `index[key] = i`: replace the binding when the key
is already present, else append it. -/
def idxInsert (l : List (List Char × Nat)) (k : List Char) (i : Nat) :
    List (List Char × Nat) :=
  if l.any (fun p => p.1 = k) then
    l.map (fun p => if p.1 = k then (k, i) else p)
  else l ++ [(k, i)]

/-- `buildItemIndex`'s `items.forEach((item, i) => { if (item.citationKey)
index[item.citationKey] = i })`. -/
def buildItemIndexGo (i : Nat) (items : List Reference)
    (acc : List (List Char × Nat)) : List (List Char × Nat) :=
  match items with
  | [] => acc
  | it :: rest =>
    buildItemIndexGo (i + 1) rest
      (if it.citationKey ≠ [] then idxInsert acc it.citationKey i else acc)

def buildItemIndex (items : List Reference) : List (List Char × Nat) :=
  buildItemIndexGo 0 items []

/-- JS object lookup `index[key]` (keys are unique by construction, so the
first binding is the binding). -/
def idxLookup (l : List (List Char × Nat)) (k : List Char) : Option Nat :=
  (l.find? (fun p => p.1 = k)).map (fun p => p.2)

/-- `updateCache`; `now` and `dbLastModified` stand for the ambient
`new Date().toISOString()` and `this.getDbLastModified()` reads. -/
def updateCache (now : List Char) (dbLastModified : Int)
    (cache : Option ZoteroCache) (items : List Reference)
    (collections : List (List Char × CollectionC))
    (updatedItemKeys : Option (List (List Char))) : ZoteroCache :=
  match cache with
  | none =>
    { version := 1, lastModified := now, dbLastModified := dbLastModified
      items := items, collections := collections
      itemIndex := buildItemIndex items }
  | some c =>
    if (updatedItemKeys.getD []).length > 0 then
      let newItems := items.foldl (fun acc item =>
        match idxLookup c.itemIndex item.citationKey with
        | some i => acc.set i item
        | none => acc ++ [item]) c.items
      { c with items := newItems, itemIndex := buildItemIndex newItems
               dbLastModified := dbLastModified, lastModified := now }
    else
      { c with items := items, collections := collections
               itemIndex := buildItemIndex items
               dbLastModified := dbLastModified, lastModified := now }

/-- C5 (amended): `hasDbChanged` returns true iff the source's modification
time reads as 0 (missing db file), or no snapshot exists, or the
modification time strictly exceeds the snapshot's recorded
`dbLastModified`. -/
theorem hasDbChanged_iff (t : Int) (cache : Option ZoteroCache) :
    hasDbChanged t cache = true ↔
      (t = 0 ∨ cache = none ∨
        ∃ c, cache = some c ∧ t > c.dbLastModified) := by
  unfold hasDbChanged
  by_cases h0 : t = 0
  · simp [h0]
  · rw [if_neg h0]
    rcases cache with _ | c
    · simp
    · simp [h0]

/-- C5 counterexample: a snapshot recorded at time 5 with the db file now
missing (modification time 0): the code returns true although a snapshot
exists and the modification time does not exceed the recorded one, so
"true iff no snapshot exists or mtime exceeds the recorded one" fails. -/
theorem hasDbChanged_counterexample :
    hasDbChanged 0 (some ⟨1, [], 5, [], [], []⟩) = true ∧
    (some (⟨1, [], 5, [], [], []⟩ : ZoteroCache) ≠ none) ∧
    ¬ ((0 : Int) > (⟨1, [], 5, [], [], []⟩ : ZoteroCache).dbLastModified) := by
  refine ⟨rfl, by simp, by norm_num⟩

theorem idxInsert_good {acc : List (List Char × Nat)} {k : List Char} {n : Nat}
    (G : List Char × Nat → Prop) (hacc : ∀ p ∈ acc, G p) (hkn : G (k, n)) :
    ∀ p ∈ idxInsert acc k n, G p := by
  intro p hp
  unfold idxInsert at hp
  split at hp
  · obtain ⟨q, hq, hfq⟩ := List.mem_map.mp hp
    by_cases he : q.1 = k
    · rw [if_pos he] at hfq
      exact hfq ▸ hkn
    · rw [if_neg he] at hfq
      exact hfq ▸ hacc q hq
  · rcases List.mem_append.mp hp with h | h
    · exact hacc p h
    · rw [List.mem_singleton.mp h]
      exact hkn

theorem buildItemIndexGo_good (full : List Reference) (items : List Reference) :
    ∀ (n : Nat) (acc : List (List Char × Nat)),
    (∀ j, j < items.length → items.get? j = full.get? (n + j)) →
    (∀ p ∈ acc, ∃ e, full.get? p.2 = some e ∧ e.citationKey = p.1) →
    ∀ p ∈ buildItemIndexGo n items acc,
      ∃ e, full.get? p.2 = some e ∧ e.citationKey = p.1 := by
  induction items with
  | nil =>
    intro n acc _ hacc p hp
    exact hacc p hp
  | cons it rest ih =>
    intro n acc hcorr hacc p hp
    simp only [buildItemIndexGo] at hp
    refine ih (n + 1) _ ?_ ?_ p hp
    · intro j hj
      have := hcorr (j + 1) (by simpa using Nat.succ_lt_succ hj)
      simpa [Nat.add_assoc, Nat.add_comm 1 j] using this
    · have h0 : full.get? n = some it := by
        have h := hcorr 0 (by simp)
        rw [Nat.add_zero] at h
        exact h.symm
      by_cases hk : it.citationKey ≠ []
      · rw [if_pos hk]
        exact idxInsert_good _ hacc ⟨it, h0, rfl⟩
      · rw [if_neg hk]
        exact hacc

theorem idxLookup_buildItemIndex {items : List Reference} {k : List Char}
    {i : Nat} (h : idxLookup (buildItemIndex items) k = some i) :
    ∃ e, items.get? i = some e ∧ e.citationKey = k := by
  unfold idxLookup at h
  cases hfind : (buildItemIndex items).find? (fun p => p.1 = k) with
  | none => rw [hfind] at h; cases h
  | some p =>
    rw [hfind] at h
    simp only [Option.map_some'] at h
    have hmem := List.mem_of_find?_eq_some hfind
    have hpred := List.find?_some hfind
    have hgood := buildItemIndexGo_good items items 0 []
      (by intro j _; simp) (by intro q hq; cases hq) p hmem
    obtain ⟨e, he, hk⟩ := hgood
    have hpi : p.2 = i := by injection h
    refine ⟨e, ?_, ?_⟩
    · rw [← hpi]
      exact he
    · rw [hk]
      exact of_decide_eq_true hpred

theorem foldl_upsert_frame (idx : List (List Char × Nat))
    (cItems : List Reference)
    (hidx : ∀ k i, idxLookup idx k = some i →
      ∃ e, cItems.get? i = some e ∧ e.citationKey = k)
    (j : Nat) (e : Reference) (hj : cItems.get? j = some e) :
    ∀ (incoming : List Reference) (acc : List Reference),
      cItems.length ≤ acc.length → acc.get? j = some e →
      (∀ item ∈ incoming, item.citationKey ≠ e.citationKey) →
      (incoming.foldl (fun acc item =>
        match idxLookup idx item.citationKey with
        | some i => acc.set i item
        | none => acc ++ [item]) acc).get? j = some e := by
  intro incoming
  induction incoming with
  | nil =>
    intro acc _ hacc _
    exact hacc
  | cons item rest ih =>
    intro acc hlen hacc hkeys
    rw [List.foldl_cons]
    have hkrest : ∀ x ∈ rest, x.citationKey ≠ e.citationKey :=
      fun x hx => hkeys x (List.mem_cons_of_mem _ hx)
    cases hlook : idxLookup idx item.citationKey with
    | some i =>
      obtain ⟨e2, he2, hk2⟩ := hidx _ _ hlook
      have hij : i ≠ j := by
        intro hEq
        subst hEq
        rw [hj] at he2
        have hval : e = e2 := by injection he2
        subst hval
        exact hkeys item (List.mem_cons_self _ _) hk2.symm
      refine ih _ ?_ ?_ hkrest
      · simpa using hlen
      · show (acc.set i item).get? j = some e
        rw [List.get?_set_ne _ _ hij]
        exact hacc
    | none =>
      refine ih _ ?_ ?_ hkrest
      · simp only [List.length_append, List.length_singleton]
        omega
      · have hjlt : j < cItems.length := List.get?_eq_some.mp hj |>.1
        rw [List.get?_append (by omega)]
        exact hacc

/-- C8: `updateCache` with a non-empty `updatedItemKeys` list upserts each
incoming entry by identity-index lookup (overwriting in place when the
citation key is already indexed, appending when it is new), rebuilds the
identity index afterwards, and leaves every cached entry whose citation key
is not among the incoming entries unchanged at its original position. The
snapshot is assumed well-formed (its index matches its entries — the data
model invariant re-established after every mutation). -/
theorem updateCache_upsert_frame (now : List Char) (t : Int) (c : ZoteroCache)
    (items : List Reference) (collections : List (List Char × CollectionC))
    (ks : List (List Char)) (hks : ks ≠ [])
    (hidx : c.itemIndex = buildItemIndex c.items)
    (j : Nat) (e : Reference) (hj : c.items.get? j = some e)
    (hkey : e.citationKey ∉ items.map (fun r => r.citationKey)) :
    (updateCache now t (some c) items collections (some ks)).itemIndex =
      buildItemIndex
        (updateCache now t (some c) items collections (some ks)).items ∧
    (updateCache now t (some c) items collections (some ks)).items.get? j =
      some e := by
  have hcond : ((some ks).getD ([] : List (List Char))).length > 0 := by
    cases ks with
    | nil => exact absurd rfl hks
    | cons a l => simp
  simp only [updateCache]
  rw [if_pos hcond]
  constructor
  · rfl
  · refine foldl_upsert_frame c.itemIndex c.items ?_ j e hj items c.items
      (le_refl _) hj ?_
    · intro k i hl
      rw [hidx] at hl
      exact idxLookup_buildItemIndex hl
    · intro item hitem hKeq
      exact hkey (List.mem_map.mpr ⟨item, hitem, hKeq⟩)

def refCatv2 : Reference :=
  { citationKey := str ("cat1"), title := str ("cat two"), date := []
    dateModified := [], publicationTitle := [], abstractNote := []
    authorKey := [], authorKeyFullName := [], zoteroTags := [] }

def cacheSample : ZoteroCache :=
  { version := 1, lastModified := [], dbLastModified := 5
    items := [refCat, refDog], collections := []
    itemIndex := buildItemIndex [refCat, refDog] }

theorem updateCache_upsert_frame_witness :
    ([str ("cat1")] ≠ ([] : List (List Char))) ∧
    (cacheSample.itemIndex = buildItemIndex cacheSample.items) ∧
    (cacheSample.items.get? 1 = some refDog) ∧
    (refDog.citationKey ∉ [refCatv2].map (fun r => r.citationKey)) ∧
    ((updateCache [] 6 (some cacheSample) [refCatv2] []
      (some [str ("cat1")])).items.get? 1 = some refDog) :=
  ⟨by decide, rfl, by decide, by decide,
    (updateCache_upsert_frame [] 6 cacheSample [refCatv2] [] [str ("cat1")]
      (by decide) rfl 1 refDog (by decide) (by decide)).2⟩

/-!
Note merge engine (`compareOldNewNote` in main.ts).
-/

/-- Offsets of every `\n` in the old note (the `newLineRegex.exec` loop). -/
def newlinePositions (s : List Char) : List Nat :=
  (List.range s.length).filter (fun i => s.get? i = some '\n')

/-- JS `split("\n")` (single-character separator, keeps empty pieces). -/
def splitNl (s : List Char) : List (List Char) :=
  s.foldr
    (fun c acc =>
      if c = '\n' then [] :: acc
      else
        match acc with
        | [] => [[c]]
        | w :: ws => (c :: w) :: ws)
    [[]]

/-- JS `substring(a, b)` at the probe call sites, where `0 ≤ a ≤ b ≤ length`
always holds (fractional JS indices truncate toward zero, which is Nat
division of the nonnegative lengths involved). -/
def jsSubstringNat (s : List Char) (a b : Nat) : List Char :=
  (s.drop a).take (b - a)

/-- JS `substring(a, b)` in full generality: clamp both indices to
`[0, length]` and swap them when start exceeds end. -/
def jsSubstring (s : List Char) (a b : Int) : List Char :=
  let n : Int := s.length
  let a2 := min (max a 0) n
  let b2 := min (max b 0) n
  let lo := min a2 b2
  let hi := max a2 b2
  (s.drop lo.toNat).take (hi - lo).toNat

/-- `line.replace(/^pre/, "")` for a fixed literal lead `pre`. -/
def stripLeadOne (pre s : List Char) : List Char :=
  if isPrefixB pre s then s.drop pre.length else s

/-- `line.replace(/c$/, "")` for a fixed literal trailing character. -/
def stripTrailOne (c : Char) (s : List Char) : List Char :=
  if s.getLast? = some c then s.dropLast else s

/-- `selectedNewLine.replace(authorKey_Zotero, "")` — remove a trailing
`"(" + authorKey + ", " + digits + ", p. " + digits + ")"` marker, parsing
from the end (the anchored pattern is deterministic; `authorKey` is matched
literally, faithful for author keys without regex metacharacters). -/
def stripAuthorZotero (ak s : List Char) : List Char :=
  match s.reverse with
  | ')' :: r1 =>
    let d2 := r1.takeWhile (fun c => c.isDigit)
    let r2 := r1.dropWhile (fun c => c.isDigit)
    if d2 ≠ [] ∧ isPrefixB (str (" .p ,")) r2 = true then
      let r3 := r2.drop 5
      let d1 := r3.takeWhile (fun c => c.isDigit)
      let r4 := r3.dropWhile (fun c => c.isDigit)
      if d1 ≠ [] ∧ isPrefixB (str (" ,")) r4 = true then
        let r5 := r4.drop 2
        if isPrefixB (ak.reverse ++ ['(']) r5 = true then
          (r5.drop (ak.length + 1)).reverse
        else s
      else s
    else s
  | _ => s

/-- `selectedNewLine.replace(authorKey_Zotfile, "")` — remove a trailing
`"(" + authorKey + " " + digits + ":" + digits + ")"` marker. -/
def stripAuthorZotfile (ak s : List Char) : List Char :=
  match s.reverse with
  | ')' :: r1 =>
    let d2 := r1.takeWhile (fun c => c.isDigit)
    let r2 := r1.dropWhile (fun c => c.isDigit)
    if d2 ≠ [] ∧ isPrefixB [':'] r2 = true then
      let r3 := r2.drop 1
      let d1 := r3.takeWhile (fun c => c.isDigit)
      let r4 := r3.dropWhile (fun c => c.isDigit)
      if d1 ≠ [] ∧ isPrefixB [' '] r4 = true then
        let r5 := r4.drop 1
        if isPrefixB (ak.reverse ++ ['(']) r5 = true then
          (r5.drop (ak.length + 1)).reverse
        else s
      else s
    else s
  | _ => s

/-- The line-stripping pipeline at the top of the reconciliation loop:
trim, leading decoration (`- `, `> `, `=`, `*` run, `*`, `"`), the two
author-key markers, then trailing decoration (`=`, `*` run, `*`, `"`). -/
def stripLine (authorKey line : List Char) : List Char :=
  let s := jsTrim line
  let s := stripLeadOne (str ("- ")) s
  let s := stripLeadOne (str ("> ")) s
  let s := stripLeadOne (str ("=")) s
  let s := s.dropWhile (fun c => c = '*')
  let s := stripLeadOne (str ("*")) s
  let s := stripLeadOne (str ("\"")) s
  let s := stripAuthorZotero authorKey s
  let s := stripAuthorZotfile authorKey s
  let s := stripTrailOne '=' s
  let s := (s.reverse.dropWhile (fun c => c = '*')).reverse
  let s := stripTrailOne '*' s
  let s := stripTrailOne '"' s
  s

/-- The length-tiered probe substrings of a stripped line (whole line for
2–29 characters, `substring(0, n/2)` and `substring(n/2 + 1, n)` for
30–149, the four analogous quarter substrings for 150 or more). -/
def probesOf (s : List Char) : List (List Char) :=
  let n := s.length
  if 1 < n ∧ n < 30 then [s]
  else if 30 ≤ n ∧ n < 150 then
    [jsSubstringNat s 0 (n / 2), jsSubstringNat s (n / 2 + 1) n]
  else if 150 ≤ n then
    [jsSubstringNat s 0 (n / 4), jsSubstringNat s (n / 4 + 1) (n / 2),
     jsSubstringNat s (n / 2 + 1) (3 * n / 4),
     jsSubstringNat s (3 * n / 4 + 1) n]
  else []

/-- The `positionArray` of one loop iteration: `[-1]` followed by the
`indexOf` result of each probe. -/
def linePositions (existingNote s : List Char) : List Int :=
  -1 :: (probesOf s).map (fun p => jsIndexOf existingNote p)

structure ReconcileState where
  positionOldNote : List Int
  insertTexts : List (List Char)
  insertPositions : List Nat
deriving DecidableEq

/-- One iteration of the reconciliation loop over the generated note's
lines. -/
def reconcileStep (existingNote : List Char) (positionNewLine : List Nat)
    (authorKey : List Char) (st : ReconcileState) (line : List Char) :
    ReconcileState :=
  let s := stripLine authorKey line
  if s.length = 0 then st
  else
    let positionArray := linePositions existingNote s
    if listMax positionArray > -1 then
      { st with positionOldNote := st.positionOldNote ++ [listMax positionArray] }
    else
      let pmax := listMax st.positionOldNote
      { st with
        insertTexts := st.insertTexts ++ [line]
        insertPositions := st.insertPositions ++
          [(positionNewLine.filter (fun p => Int.ofNat p > pmax)).head?.getD 0] }

/-- The full reconciliation pass: which lines are scheduled for insertion
and where (`positionOldNote` starts at `[0]`). -/
def reconcileInserts (existingNote newNote authorKey : List Char) :
    ReconcileState :=
  (splitNl newNote).foldl
    (reconcileStep existingNote (newlinePositions existingNote) authorKey)
    ⟨[0], [], []⟩

/-- The insertion pass, applied in reverse line order:
`existingNote.slice(0, pos) + doubleSpaceAdd + "\n" + text + existingNote.slice(pos)`. -/
def applyInserts (existingNote : List Char) (texts : List (List Char))
    (positions : List Nat) (doubleSpaceAdd : List Char) : List Char :=
  ((texts.zip positions).reverse).foldl
    (fun acc tp =>
      acc.take tp.2 ++ doubleSpaceAdd ++ ['\n'] ++ tp.1 ++ acc.drop tp.2)
    existingNote

/-- The `"Select Section"` tail of `compareOldNewNote`. -/
def selectSectionMerge (existingNote newNote startSave endSave : List Char) :
    List Char :=
  let startSaveOld : Int :=
    if startSave ≠ [] then jsIndexOf existingNote startSave else 0
  let startSaveOld := if startSaveOld < 0 then 0 else startSaveOld
  let endSaveOld : Int :=
    if endSave ≠ [] then jsIndexOf existingNote endSave + endSave.length
    else (existingNote.length : Int)
  let endSaveOld :=
    if endSaveOld < 0 then (existingNote.length : Int) else endSaveOld
  let existingNotePreserved := jsSubstring existingNote startSaveOld endSaveOld
  let startSaveNew : Int :=
    if startSave ≠ [] then jsIndexOf newNote startSave else 0
  let startSaveNew := if startSaveNew < 0 then 0 else startSaveNew
  let endSaveNew : Int :=
    if endSave ≠ [] then jsIndexOf newNote endSave + endSave.length
    else (newNote.length : Int)
  let endSaveNew := if endSaveNew < 0 then (newNote.length : Int) else endSaveNew
  jsSubstring newNote 0 startSaveNew ++ existingNotePreserved ++
    jsSubstring newNote endSaveNew newNote.length

/-- The `saveManualEdits` setting values the merge branches on. -/
inductive SaveMode where
  | saveEntireNote
  | selectSection
  | overwriteEntireNote
deriving DecidableEq

structure MergeSettings where
  saveManualEdits : SaveMode
  saveManualEditsStart : List Char
  saveManualEditsEnd : List Char
  isDoubleSpaced : Bool

/-- `compareOldNewNote`. -/
def compareOldNewNote (settings : MergeSettings)
    (existingNote newNote authorKey : List Char) : List Char :=
  let st := reconcileInserts existingNote newNote authorKey
  let doubleSpaceAdd : List Char := if settings.isDoubleSpaced then ['\n'] else []
  let existingNote2 :=
    applyInserts existingNote st.insertTexts st.insertPositions doubleSpaceAdd
  if settings.saveManualEdits = SaveMode.saveEntireNote then existingNote2
  else if settings.saveManualEdits = SaveMode.selectSection then
    selectSectionMerge existingNote2 newNote settings.saveManualEditsStart
      settings.saveManualEditsEnd
  else existingNote2

theorem jsIndexOf_ge_neg_one (hay needle : List Char) :
    -1 ≤ jsIndexOf hay needle := by
  cases hfind : (List.range (hay.length + 1)).find? (fun i => occursAt hay needle i) with
  | some i =>
    have hjs : jsIndexOf hay needle = (i : Int) := by
      unfold jsIndexOf
      rw [hfind]
    rw [hjs]
    omega
  | none =>
    have hjs : jsIndexOf hay needle = -1 := by
      unfold jsIndexOf
      rw [hfind]
    rw [hjs]

theorem jsIndexOf_gt_neg_one_iff {hay needle : List Char} :
    jsIndexOf hay needle > -1 ↔ containsB hay needle = true := by
  constructor
  · intro h
    cases hc : containsB hay needle
    · have := jsIndexOf_eq_neg_one_iff.mpr hc
      rw [this] at h
      exact absurd h (lt_irrefl _)
    · rfl
  · intro hc
    rw [jsIndexOf_of_contains hc]
    omega

theorem listMax_cons_neg_one_pos {l : List Int} :
    listMax (-1 :: l) > -1 ↔ ∃ y ∈ l, y > -1 := by
  constructor
  · intro h
    rcases List.mem_cons.mp (listMax_mem (x := -1) (l := l)) with hh | hh
    · rw [hh] at h
      exact absurd h (lt_irrefl _)
    · exact ⟨_, hh, h⟩
  · rintro ⟨y, hy, hypos⟩
    have := le_listMax_of_mem (x := -1) (List.mem_cons_of_mem _ hy)
    omega

/-- The tier probes as the amended claim words them: whole line for 2–29;
the first `⌊n/2⌋` characters and the characters after position `⌊n/2⌋`
(skipping the character at the midpoint) for 30–149; the four analogous
quarter segments, each skipping the character at its left boundary, for
150 or more. -/
def specProbesAmended (s : List Char) : List (List Char) :=
  let n := s.length
  if 1 < n ∧ n < 30 then [s]
  else if 30 ≤ n ∧ n < 150 then
    [s.take (n / 2), s.drop (n / 2 + 1)]
  else if 150 ≤ n then
    [s.take (n / 4), (s.drop (n / 4 + 1)).take (n / 2 - (n / 4 + 1)),
     (s.drop (n / 2 + 1)).take (3 * n / 4 - (n / 2 + 1)),
     s.drop (3 * n / 4 + 1)]
  else []

theorem probesOf_eq_amended (s : List Char) :
    probesOf s = specProbesAmended s := by
  unfold probesOf specProbesAmended jsSubstringNat
  dsimp only
  split
  · rfl
  · split
    · have e1 : (s.drop 0).take (s.length / 2 - 0) = s.take (s.length / 2) := by
        simp
      have e2 : (s.drop (s.length / 2 + 1)).take (s.length - (s.length / 2 + 1)) =
          s.drop (s.length / 2 + 1) := by
        apply List.take_of_length_le
        simp [List.length_drop]
      rw [e1, e2]
    · split
      · have e1 : (s.drop 0).take (s.length / 4 - 0) = s.take (s.length / 4) := by
          simp
        have e4 : (s.drop (3 * s.length / 4 + 1)).take
            (s.length - (3 * s.length / 4 + 1)) =
            s.drop (3 * s.length / 4 + 1) := by
          apply List.take_of_length_le
          simp [List.length_drop]
        rw [e1, e4]
      · rfl

/-- The first-occurrence offsets of the occurring probes. -/
def occOffsets (E s : List Char) : List Int :=
  (specProbesAmended s).filterMap (fun p =>
    if containsB E p then some ((firstOccIdx E p : Int)) else none)

/-- C7 (amended): for every stripped line of length at least 2, the
reconciliation pass classifies the line found exactly when one of its tier
probes occurs in the existing text — the probes being the whole line for
2–29 characters, the first `⌊n/2⌋` characters and the characters after
position `⌊n/2⌋` (one character at the midpoint is skipped) for 30–149,
and the four analogous quarter segments (each skipping the character at its
left boundary) for 150 or more — and the recorded anchor is the greatest
first-occurrence offset over the occurring probes. -/
theorem line_probe_classification (E s : List Char) (h2 : 2 ≤ s.length) :
    ((listMax (linePositions E s) > -1) ↔
      ∃ p ∈ specProbesAmended s, containsB E p = true) ∧
    (listMax (linePositions E s) > -1 →
      listMax (linePositions E s) ∈ occOffsets E s ∧
      ∀ o ∈ occOffsets E s, o ≤ listMax (linePositions E s)) := by
  have hpr : probesOf s = specProbesAmended s := probesOf_eq_amended s
  constructor
  · rw [linePositions, listMax_cons_neg_one_pos]
    constructor
    · rintro ⟨y, hy, hypos⟩
      obtain ⟨p, hp, rfl⟩ := List.mem_map.mp hy
      exact ⟨p, hpr ▸ hp, jsIndexOf_gt_neg_one_iff.mp hypos⟩
    · rintro ⟨p, hp, hc⟩
      exact ⟨jsIndexOf E p, List.mem_map_of_mem _ (hpr ▸ hp),
        jsIndexOf_gt_neg_one_iff.mpr hc⟩
  · intro hfound
    constructor
    · rcases List.mem_cons.mp
        (listMax_mem (x := (-1 : Int))
          (l := (probesOf s).map (fun p => jsIndexOf E p))) with hh | hh
      · rw [linePositions] at hfound
        rw [hh] at hfound
        exact absurd hfound (lt_irrefl _)
      · obtain ⟨p, hp, hmx⟩ := List.mem_map.mp hh
        have hcont : containsB E p = true := by
          apply jsIndexOf_gt_neg_one_iff.mp
          rw [hmx]
          exact hfound
        refine List.mem_filterMap.mpr ⟨p, hpr ▸ hp, ?_⟩
        rw [if_pos hcont, ← jsIndexOf_of_contains hcont, hmx]
        rfl
    · intro o ho
      obtain ⟨p, hp, hfo⟩ := List.mem_filterMap.mp ho
      cases hc : containsB E p with
      | false => rw [if_neg (by simp [hc])] at hfo; cases hfo
      | true =>
        rw [if_pos (by simp [hc])] at hfo
        have : o = jsIndexOf E p := by
          rw [jsIndexOf_of_contains hc]
          injection hfo with hfo
          exact hfo.symm
        rw [this]
        exact le_listMax_of_mem
          (List.mem_cons_of_mem _ (List.mem_map_of_mem _ (hpr ▸ hp)))

theorem line_probe_classification_witness :
    (2 ≤ (str ("abc")).length) ∧
    ((listMax (linePositions (str ("xabc")) (str ("abc"))) > -1) ↔
      ∃ p ∈ specProbesAmended (str ("abc")),
        containsB (str ("xabc")) p = true) :=
  ⟨by decide, (line_probe_classification (str ("xabc")) (str ("abc"))
    (by decide)).1⟩

/-- The claim's wording for the 30–149 tier: the line is probed as its
first half and second half. -/
def specHalfProbes (s : List Char) : List (List Char) :=
  [s.take (s.length / 2), s.drop (s.length / 2)]

/-- C7 counterexample: the 30-character line `"a"*15 ++ "b" ++ "c"*14`
against existing text `"c"*14`. The pass does not probe the line's halves:
its second probe starts one character past the midpoint, skipping `"b"`, so
the line is classified found (anchor 0) although neither the first half nor
the second half occurs in the existing text. -/
theorem half_probe_counterexample :
    (stripLine [] (str ("aaaaaaaaaaaaaaabcccccccccccccc")) =
      str ("aaaaaaaaaaaaaaabcccccccccccccc")) ∧
    ((str ("aaaaaaaaaaaaaaabcccccccccccccc")).length = 30) ∧
    (listMax (linePositions (str ("cccccccccccccc"))
      (str ("aaaaaaaaaaaaaaabcccccccccccccc"))) > -1) ∧
    (∀ p ∈ specHalfProbes (str ("aaaaaaaaaaaaaaabcccccccccccccc")),
      containsB (str ("cccccccccccccc")) p = false) := by
  refine ⟨by decide, by decide, by decide, by decide⟩

theorem insertTexts_mono_step (E : List Char) (pn : List Nat) (ak : List Char)
    (st : ReconcileState) (line x : List Char) (hx : x ∈ st.insertTexts) :
    x ∈ (reconcileStep E pn ak st line).insertTexts := by
  unfold reconcileStep
  dsimp only
  split
  · exact hx
  · split
    · exact hx
    · exact List.mem_append_left _ hx

theorem insertTexts_mono_fold (E : List Char) (pn : List Nat) (ak : List Char)
    (lines : List (List Char)) (st : ReconcileState) (x : List Char)
    (hx : x ∈ st.insertTexts) :
    x ∈ (lines.foldl (reconcileStep E pn ak) st).insertTexts := by
  induction lines generalizing st with
  | nil => exact hx
  | cons l ls ih =>
    rw [List.foldl_cons]
    exact ih _ (insertTexts_mono_step E pn ak st l x hx)

theorem probesOf_length_one {s : List Char} (h : s.length = 1) :
    probesOf s = [] := by
  unfold probesOf
  rw [h]
  norm_num

theorem single_char_step_inserts (E : List Char) (pn : List Nat)
    (ak : List Char) (st : ReconcileState) (line : List Char)
    (hlen : (stripLine ak line).length = 1) :
    line ∈ (reconcileStep E pn ak st line).insertTexts := by
  have hpos : linePositions E (stripLine ak line) = [-1] := by
    rw [linePositions, probesOf_length_one hlen]
    rfl
  unfold reconcileStep
  dsimp only
  rw [if_neg (by omega), hpos, if_neg (by decide)]
  exact List.mem_append_right _ (List.mem_singleton.mpr rfl)

theorem fold_inserts_single_char (E : List Char) (pn : List Nat)
    (ak : List Char) (lines : List (List Char)) (st : ReconcileState)
    (line : List Char) (hmem : line ∈ lines)
    (hlen : (stripLine ak line).length = 1) :
    line ∈ (lines.foldl (reconcileStep E pn ak) st).insertTexts := by
  induction lines generalizing st with
  | nil => cases hmem
  | cons l ls ih =>
    rw [List.foldl_cons]
    rcases List.mem_cons.mp hmem with h | h
    · subst h
      exact insertTexts_mono_fold E pn ak ls _ line
        (single_char_step_inserts E pn ak st line hlen)
    · exact ih _ h

/-- C10: a generated line whose stripped form has length exactly 1 receives
no probe at all (`probesOf` is empty) and is always classified not found —
even when the character occurs in the existing text — so the line is
scheduled for insertion by the reconciliation pass run for the PreserveAll
and PreserveSection policies. -/
theorem single_char_line_always_inserted (existingNote newNote authorKey
    line : List Char) (hline : line ∈ splitNl newNote)
    (hlen : (stripLine authorKey line).length = 1) :
    probesOf (stripLine authorKey line) = [] ∧
    listMax (linePositions existingNote (stripLine authorKey line)) = -1 ∧
    line ∈ (reconcileInserts existingNote newNote authorKey).insertTexts := by
  refine ⟨probesOf_length_one hlen, ?_, ?_⟩
  · rw [linePositions, probesOf_length_one hlen]
    rfl
  · exact fold_inserts_single_char existingNote (newlinePositions existingNote)
      authorKey (splitNl newNote) _ line hline hlen

theorem single_char_line_always_inserted_witness :
    (str ("x") ∈ splitNl (str ("x"))) ∧
    ((stripLine [] (str ("x"))).length = 1) ∧
    (containsB (str ("x")) (str ("x")) = true) ∧
    (str ("x") ∈ (reconcileInserts (str ("x")) (str ("x")) []).insertTexts) :=
  ⟨by decide, by decide, by decide,
    (single_char_line_always_inserted (str ("x")) (str ("x")) [] (str ("x"))
      (by decide) (by decide)).2.2⟩

/-- C6 (code bug): under PreserveSection with a nonempty end marker that
does not occur, the end of the preserved region does not default to the end
of the text. `endSaveOld` becomes `indexOf(endSave) + endSave.length =
-1 + length`, which is nonnegative for markers of two or more characters,
so the dead `if (endSaveOld < 0)` guard never restores the text end. With
existing note "hello", generated note "ello" (fully found, so reconciliation
changes nothing), empty start marker and unmatched end marker "zz", the
merge returns "hllo", not the "hello" the claim's default rule predicts. -/
theorem preserve_section_end_marker_bug :
    compareOldNewNote ⟨SaveMode.selectSection, [], str ("zz"), false⟩
      (str ("hello")) (str ("ello")) [] = str ("hllo") ∧
    str ("hllo") ≠ str ("hello") := by
  refine ⟨by with_unfolding_all decide, by decide⟩

/-!
Source extractor: citation-key resolution in `extractItems` (zotero-db.ts).
JS truthiness collapses "property absent" and "empty string", so record
fields and the BetterBibTeX map are modelled as `List Char` with `[]` for
both (`extractBBTCiteKeys` only ever stores truthy citekeys).
-/

/-- The raw fields of one non-auxiliary, non-deleted item row that
citation-key resolution and `Reference` construction read. -/
structure RawRecord where
  itemID : Nat
  itemKey : List Char
  itemType : List Char
  dateModifiedRaw : List Char
  citationKeyField : List Char
  extraField : List Char
  titleField : List Char
  dateField : List Char
  publicationTitleField : List Char
  abstractNoteField : List Char
deriving DecidableEq

/-- `extra.match(/^Citation Key:\s*(.+)$/im)` followed by `m[1].trim()`:
the first line whose lowercased form starts with `citation key:` and has a
nonempty remainder; the captured remainder, trimmed ( `\s*` plus `.trim()`
amounts to trimming everything after the colon). `[]` when no line
matches. -/
def extraCitationKey (extra : List Char) : List Char :=
  match (extra.splitOn '\n').find? (fun l =>
      isPrefixB (str ("citation key:")) (l.map Char.toLower) &&
      decide (13 < l.length)) with
  | some l => jsTrim (l.drop 13)
  | none => []

/-- The citation-key resolution chain of `extractItems`:
BBT map → explicit `citationKey` field → `Citation Key:` pattern in the
`extra` field; `[]` when none resolves. -/
def resolveCitationKey (bbt : Nat → List Char) (r : RawRecord) : List Char :=
  if bbt r.itemID ≠ [] then bbt r.itemID
  else if r.citationKeyField ≠ [] then r.citationKeyField
  else if r.extraField ≠ [] then extraCitationKey r.extraField
  else []

/-- The `Reference` built for a record once its citation key resolved
(restricted to the fields the rest of the embedding reads). -/
def mkReference (r : RawRecord) (k : List Char) : Reference :=
  { citationKey := k, title := r.titleField, date := r.dateField
    dateModified := r.dateModifiedRaw
    publicationTitle := r.publicationTitleField
    abstractNote := r.abstractNoteField
    authorKey := [], authorKeyFullName := [], zoteroTags := [] }

/-- The reference-building loop of `extractItems`: resolve each record's
key and silently skip (`continue`) the records whose key stays empty. -/
def extractItems (bbt : Nat → List Char) (records : List RawRecord) :
    List Reference :=
  records.filterMap (fun r =>
    let citationKey := resolveCitationKey bbt r
    if citationKey = [] then none else some (mkReference r citationKey))

/-- Spec wording of the precedence: (1) the key-manager store's mapping when
an entry for the item is present, else (2) the record's explicit
citationKey field, else (3) the `Citation Key:` pattern extracted from the
free-text extra field; `none` when none of the three resolves. -/
def specResolveKey (bbt : Nat → List Char) (r : RawRecord) :
    Option (List Char) :=
  if bbt r.itemID ≠ [] then some (bbt r.itemID)
  else if r.citationKeyField ≠ [] then some r.citationKeyField
  else if extraCitationKey r.extraField ≠ [] then
    some (extraCitationKey r.extraField)
  else none

theorem extraCitationKey_nil : extraCitationKey [] = [] := by
  decide

theorem resolveCitationKey_eq_spec (bbt : Nat → List Char) (r : RawRecord) :
    (specResolveKey bbt r = none ↔ resolveCitationKey bbt r = []) ∧
    (∀ k, specResolveKey bbt r = some k → k ≠ [] →
      resolveCitationKey bbt r = k) ∧
    (∀ k, specResolveKey bbt r = some k → k = [] →
      resolveCitationKey bbt r = []) := by
  unfold specResolveKey resolveCitationKey
  by_cases h1 : bbt r.itemID ≠ []
  · rw [if_pos h1, if_pos h1]
    refine ⟨by simp [h1], ?_, ?_⟩
    · intro k hk _
      injection hk with hk
    · intro k hk hknil
      injection hk with hk
      exact absurd (hknil ▸ hk) h1
  · rw [if_neg h1, if_neg h1]
    by_cases h2 : r.citationKeyField ≠ []
    · rw [if_pos h2, if_pos h2]
      refine ⟨by simp [h2], ?_, ?_⟩
      · intro k hk _
        injection hk with hk
      · intro k hk hknil
        injection hk with hk
        exact absurd (hknil ▸ hk) h2
    · rw [if_neg h2, if_neg h2]
      by_cases h3 : r.extraField ≠ []
      · rw [if_pos h3]
        by_cases h4 : extraCitationKey r.extraField ≠ []
        · rw [if_pos h4]
          refine ⟨by simp [h4], ?_, ?_⟩
          · intro k hk _
            injection hk with hk
          · intro k hk hknil
            injection hk with hk
            exact absurd (hknil ▸ hk) h4
        · rw [if_neg h4]
          push_neg at h4
          refine ⟨by simp [h4], ?_, ?_⟩
          · intro k hk
            cases hk
          · intro k hk
            cases hk
      · rw [if_neg h3]
        push_neg at h3
        rw [h3, extraCitationKey_nil]
        simp

/-- C9: the citation key of every extracted record follows the strict
precedence key-manager store → explicit citationKey field → `Citation Key:`
pattern in the extra field, and a record for which none of the three
resolves is silently excluded: `extractItems` equals filtering the records
through the spec-worded resolution, and no materialized entry has an empty
citation key. -/
theorem extractItems_precedence_and_exclusion (bbt : Nat → List Char)
    (records : List RawRecord) :
    extractItems bbt records =
      records.filterMap (fun r =>
        match specResolveKey bbt r with
        | none => none
        | some k => if k = [] then none else some (mkReference r k)) ∧
    ∀ ref ∈ extractItems bbt records, ref.citationKey ≠ [] := by
  constructor
  · unfold extractItems
    apply List.filterMap_congr
    intro r _
    obtain ⟨hnone, hsome, hsome0⟩ := resolveCitationKey_eq_spec bbt r
    cases hk : specResolveKey bbt r with
    | none =>
      rw [if_pos (hnone.mp hk)]
    | some k =>
      by_cases hknil : k = []
      · rw [if_pos (hsome0 k hk hknil)]
        show (none : Option Reference) =
          if k = [] then none else some (mkReference r k)
        rw [if_pos hknil]
      · rw [if_neg (by rw [hsome k hk hknil]; exact hknil)]
        show some (mkReference r (resolveCitationKey bbt r)) =
          if k = [] then none else some (mkReference r k)
        rw [if_neg hknil, hsome k hk hknil]
  · intro ref href
    obtain ⟨r, _, hr⟩ := List.mem_filterMap.mp href
    by_cases hknil : resolveCitationKey bbt r = []
    · rw [if_pos hknil] at hr
      cases hr
    · rw [if_neg hknil] at hr
      injection hr with hr
      rw [← hr]
      exact hknil
